import Mathlib

/-!
Verification of the `cipher` crate's block/stream transform substrate.

The development shallowly embeds the code of `src/block.rs` and
`src/stream_core.rs`: blocks are `List Nat` (byte values), block buffers are
`List (List Nat)`, backend state is threaded explicitly, and fallible
operations return `Except`/`Option`.
-/

namespace CipherSpec

/-- A block is a list of byte values. -/
abbrev Blk := List Nat

/-- Recursion worker for `into_chunks`; the fuel argument (instantiated with
the list length, which bounds the number of full groups) makes the recursion
structural. -/
def intoChunksGo (L : Nat) : Nat → List α → List (List α) × List α
  | 0, blocks => ([], blocks)
  | fuel+1, blocks =>
    if 1 ≤ L ∧ L ≤ blocks.length then
      let r := intoChunksGo L fuel (blocks.drop L)
      (blocks.take L :: r.1, r.2)
    else
      ([], blocks)

/-- Embeds `inout::InOutBuf::into_chunks` (an external collaborator of the
crate, modelled from the spec's chunking-engine description): split a sequence
into full groups of `L` elements in original order plus a tail of fewer than
`L` elements. -/
def into_chunks (L : Nat) (blocks : List α) : List (List α) × List α :=
  intoChunksGo L blocks.length blocks

/-- Embeds the byte-wise xor loop `for j in 0..N { res[j] = a[j] ^ b[j] }`
from `apply_ks` in `stream_core.rs`. -/
def xorBlock (N : Nat) (a b : Blk) : Blk :=
  (List.range N).map fun j => (a.getD j 0) ^^^ (b.getD j 0)

/-- Embeds `apply_ks` from `stream_core.rs` in its buffer-to-buffer reading:
output block `i` is the byte-wise xor of input block `i` and keystream
block `i`, written to a destination disjoint from the source. -/
def apply_ks (N : Nat) (blocks ks : List Blk) : List Blk :=
  (List.range blocks.length).map fun i => xorBlock N (blocks.getD i []) (ks.getD i [])

/-- The loop of `apply_ks` read as a memory-mutating program: process `k`
indices starting at `j`, at each index reading the current memory cell, then
overwriting that same cell.  This is the in-place (fully aliased) reading of
the raw-pointer loop in `apply_ks`. -/
def apply_ks_loop (N : Nat) (ks : List Blk) : Nat → Nat → List Blk → List Blk
  | _, 0, mem => mem
  | j, k+1, mem =>
    apply_ks_loop N ks (j+1) k (mem.set j (xorBlock N (mem.getD j []) (ks.getD j [])))

/-- Embeds `apply_ks` from `stream_core.rs` when input and output alias the
same memory: the loop runs over the single shared buffer. -/
def apply_ks_inplace (N : Nat) (mem ks : List Blk) : List Blk :=
  apply_ks_loop N ks 0 mem.length mem

/-- Embeds the scalar path `for block in self.blocks { backend.proc_block(block) }`
of `BlocksCtx::call` in `block.rs`: invoke the single-block handler once per
block in original order, threading the backend state. -/
def procBlocksSeq (pb : S → Blk → S × Blk) : S → List Blk → S × List Blk
  | s, [] => (s, [])
  | s, b :: bs =>
    let r := pb s b
    let rest := procBlocksSeq pb r.1 bs
    (rest.1, r.2 :: rest.2)

/-- Embeds the default `BlockBackend::proc_par_blocks` body from `block.rs`:
`for i in 0..ParBlocksSize { self.proc_block(blocks.get(i)) }` — an indexed
loop over `k` positions starting at `j` (the call site uses `0` and
`ParBlocksSize`), reading and overwriting position `i`. -/
def procParBlocksDefault (pb : S → Blk → S × Blk) : Nat → Nat → S → List Blk → S × List Blk
  | _, 0, s, mem => (s, mem)
  | j, k+1, s, mem =>
    let r := pb s (mem.getD j [])
    procParBlocksDefault pb (j+1) k r.1 (mem.set j r.2)

/-- Embeds the default `BlockBackend::proc_tail_blocks` body from `block.rs`:
`assert!(blocks.len() < ParBlocksSize)` followed by scalar processing of each
tail block.  The failed assertion (a fail-fast abort) is modelled as `none`. -/
def procTailBlocksDefault (L : Nat) (pb : S → Blk → S × Blk) (s : S) (blocks : List Blk) :
    Option (S × List Blk) :=
  if blocks.length < L then some (procBlocksSeq pb s blocks) else none

/-- A `BlockBackend` from `block.rs`: a lane width `ParBlocksSize`, a
single-block handler `proc_block`, and the (overridable) lane-group and tail
handlers, whose default values are the bodies of the trait's provided
methods. -/
structure BlockBackend (S : Type) where
  ParBlocksSize : Nat
  proc_block : S → Blk → S × Blk
  proc_par_blocks : S → List Blk → S × List Blk :=
    fun s blocks => procParBlocksDefault proc_block 0 ParBlocksSize s blocks
  proc_tail_blocks : S → List Blk → Option (S × List Blk) :=
    fun s blocks => procTailBlocksDefault ParBlocksSize proc_block s blocks

/-- A backend that keeps both default handlers, as produced by an
implementation that only supplies `proc_block` (e.g. everything generated by
`impl_simple_block_encdec`). -/
def mkBackend (L : Nat) (pb : S → Blk → S × Blk) : BlockBackend S :=
  { ParBlocksSize := L, proc_block := pb }

/-- The lane-group loop of `BlocksCtx::call`: `for chunk in chunks { backend.proc_par_blocks(chunk) }`,
collecting the processed groups in order. -/
def procChunksLoop (f : S → List Blk → S × List Blk) : S → List (List Blk) → S × List (List Blk)
  | s, [] => (s, [])
  | s, c :: cs =>
    let r := f s c
    let rest := procChunksLoop f r.1 cs
    (rest.1, r.2 :: rest.2)

/-- Embeds `BlocksCtx::call` from `block.rs`: when the backend's lane width
exceeds 1, split the blocks into full lane groups plus a tail via
`into_chunks`, run `proc_par_blocks` on every group and `proc_tail_blocks` on
the tail; otherwise process every block with `proc_block` in order.  `none`
propagates a failed tail assertion. -/
def BlocksCtx.call (b : BlockBackend S) (s : S) (blocks : List Blk) : Option (S × List Blk) :=
  if 1 < b.ParBlocksSize then
    let ct := into_chunks b.ParBlocksSize blocks
    let r := procChunksLoop b.proc_par_blocks s ct.1
    (b.proc_tail_blocks r.1 ct.2).map fun t => (t.1, r.2.flatten ++ t.2)
  else
    some (procBlocksSeq b.proc_block s blocks)

/-- The two closure shapes of `block.rs`: `BlockCtx` (a single block) and
`BlocksCtx` (a buffer of blocks). -/
inductive BlockClosureData where
  | single : Blk → BlockClosureData
  | blocks : List Blk → BlockClosureData

/-- Embeds `BlockClosure::call` as implemented by `BlockCtx` and `BlocksCtx`
in `block.rs`: a single block goes straight to `proc_block`, a buffer goes
through the chunking dispatch `BlocksCtx.call`. -/
def BlockClosure.call (f : BlockClosureData) (b : BlockBackend S) (s : S) :
    Option (S × BlockClosureData) :=
  match f with
  | .single blk =>
    let r := b.proc_block s blk
    some (r.1, .single r.2)
  | .blocks bls =>
    (BlocksCtx.call b s bls).map fun r => (r.1, .blocks r.2)

/-- A type implementing `BlockEncrypt`/`BlockDecrypt` from `block.rs`: it
supplies a backend (here with the default lane handlers, as produced by
`impl_simple_block_encdec`-style implementations) for each direction, plus the
initial backend state. -/
structure BlockAlg (S : Type) where
  st : S
  L : Nat
  encProc : S → Blk → S × Blk
  decProc : S → Blk → S × Blk

/-- Embeds `BlockEncrypt::encrypt_with_backend`: hand the caller's closure the
algorithm's encryption backend.  Read-only access: the algorithm value is not
returned because it cannot change. -/
def encrypt_with_backend (alg : BlockAlg S) (f : BlockClosureData) : Option BlockClosureData :=
  (BlockClosure.call f (mkBackend alg.L alg.encProc) alg.st).map (·.2)

/-- Embeds `BlockDecrypt::decrypt_with_backend`. -/
def decrypt_with_backend (alg : BlockAlg S) (f : BlockClosureData) : Option BlockClosureData :=
  (BlockClosure.call f (mkBackend alg.L alg.decProc) alg.st).map (·.2)

/-- Embeds the blanket `impl<Alg: BlockEncrypt> BlockEncryptMut for Alg` from
`block.rs`: the mutable entry point runs the read-only dispatch pipeline and
hands back the (necessarily unchanged) algorithm value. -/
def encrypt_with_backend_mut (alg : BlockAlg S) (f : BlockClosureData) :
    Option BlockClosureData × BlockAlg S :=
  ((BlockClosure.call f (mkBackend alg.L alg.encProc) alg.st).map (·.2), alg)

/-- Embeds the blanket `impl<Alg: BlockDecrypt> BlockDecryptMut for Alg`. -/
def decrypt_with_backend_mut (alg : BlockAlg S) (f : BlockClosureData) :
    Option BlockClosureData × BlockAlg S :=
  ((BlockClosure.call f (mkBackend alg.L alg.decProc) alg.st).map (·.2), alg)

/-- Embeds `BlockEncrypt::encrypt_blocks_b2b` from `block.rs`:
`InOutBuf::new(in_blocks, out_blocks)` fails with `NotEqualError` when the
lengths differ (out buffer untouched), otherwise the buffer is driven through
`BlocksCtx::call` and the processed blocks land in the out buffer.  The outer
`Option` propagates a failed tail assertion, the `Except` is the
`NotEqualError`; the second component is the out buffer after the call. -/
def encrypt_blocks_b2b (alg : BlockAlg S) (in_blocks out_blocks : List Blk) :
    Option (Except Unit Unit × List Blk) :=
  if in_blocks.length = out_blocks.length then
    (BlocksCtx.call (mkBackend alg.L alg.encProc) alg.st in_blocks).map
      fun r => (Except.ok (), r.2)
  else
    some (Except.error (), out_blocks)

/-- Embeds `BlockDecrypt::decrypt_blocks_b2b` from `block.rs`. -/
def decrypt_blocks_b2b (alg : BlockAlg S) (in_blocks out_blocks : List Blk) :
    Option (Except Unit Unit × List Blk) :=
  if in_blocks.length = out_blocks.length then
    (BlocksCtx.call (mkBackend alg.L alg.decProc) alg.st in_blocks).map
      fun r => (Except.ok (), r.2)
  else
    some (Except.error (), out_blocks)

/-- A stream cipher implementing `StreamCipherCore` from `stream_core.rs`.

Modelled from the spec: the trait's required methods
`process_with_keystream_blocks` and `remaining_blocks` are abstract in the
source (supplied by concrete primitives outside this crate), so per §4.5 of
the spec the keystream generator is a pure function of the counter that
advances the counter by exactly one per generated block, and
`remaining_blocks` reports the remaining budget (`none` = unbounded). -/
structure SCipher where
  blockSize : Nat
  ksfun : Nat → Blk
  pos : Nat
  remaining : Option Nat

/-- The keystream blocks produced next by the cipher: blocks
`pos, pos+1, ..., pos+k-1` in counter order. -/
def ksBlocks (c : SCipher) (k : Nat) : List Blk :=
  (List.range k).map fun i => c.ksfun (c.pos + i)

/-- Counter bookkeeping for generating `k` keystream blocks: the position
advances by `k` and a bounded remaining budget shrinks by `k`. -/
def advance (c : SCipher) (k : Nat) : SCipher :=
  { c with pos := c.pos + k, remaining := c.remaining.map (· - k) }

/-- Embeds `StreamCipherCore::apply_keystream_blocks` from `stream_core.rs`:
xor the buffer with one generated keystream block per input block (via
`apply_ks`), advancing the counter.  Returns the output buffer and the new
cipher state. -/
def apply_keystream_blocks (c : SCipher) (blocks : List Blk) : List Blk × SCipher :=
  (apply_ks c.blockSize blocks (ksBlocks c blocks.length), advance c blocks.length)

/-- Embeds the `blocks` computation at the top of
`StreamCipherCore::try_apply_keystream_partial` exactly as written in the
source: `if len % bs == 0 { len % bs } else { len % bs + 1 }`. -/
def needed_blocks (bs len : Nat) : Nat :=
  if len % bs = 0 then len % bs else len % bs + 1

/-- The budget guard of `try_apply_keystream_partial`: with a bounded budget,
fail when the computed `blocks` exceeds the remaining count. -/
def keystreamCheckFails (c : SCipher) (len : Nat) : Bool :=
  match c.remaining with
  | some rem => decide (rem < needed_blocks c.blockSize len)
  | none => false

/-- Embeds `StreamCipherCore::try_apply_keystream_partial` from
`stream_core.rs` (the Rust method name ends in `partial`): budget check
first; then all complete leading blocks when the buffer is longer than one
block; then, if bytes remain, a zero-initialized scratch block holding the
tail bytes is run through one keystream block and its first `n` bytes are
copied to the output.  Returns the output bytes and the final cipher state. -/
def try_apply_keystream_part (c : SCipher) (buf : List Nat) :
    Except Unit (List Nat × SCipher) :=
  if keystreamCheckFails c buf.length then
    Except.error ()
  else
    let step1 : List Nat × SCipher × List Nat :=
      if c.blockSize < buf.length then
        let ct := into_chunks c.blockSize buf
        let r := apply_keystream_blocks c ct.1
        (r.1.flatten, r.2, ct.2)
      else
        ([], c, buf)
    let n := step1.2.2.length
    if n = 0 then
      Except.ok (step1.1, step1.2.1)
    else
      let block := step1.2.2 ++ List.replicate (c.blockSize - n) 0
      let r2 := apply_keystream_blocks step1.2.1 [block]
      Except.ok (step1.1 ++ (r2.1.getD 0 []).take n, r2.2)

/-! ### Helper lemmas about list indexing -/

lemma getD_map_range (f : Nat → α) {n i : Nat} (h : i < n) (d : α) :
    ((List.range n).map f).getD i d = f i := by
  simp [List.getD_eq_getElem?_getD, List.getElem?_map, List.getElem?_range h]

lemma map_getD_range (l : List α) (d : α) :
    (List.range l.length).map (fun i => l.getD i d) = l := by
  induction l with
  | nil => simp
  | cons a as ih =>
    rw [List.length_cons, List.range_succ_eq_map, List.map_cons, List.map_map]
    simp only [Function.comp_def, List.getD_cons_zero, List.getD_cons_succ]
    rw [ih]

lemma take_set_same (l : List α) (j : Nat) (v : α) : (l.set j v).take j = l.take j := by
  apply List.ext_getElem?
  intro i
  rw [List.getElem?_take, List.getElem?_take]
  split
  · exact List.getElem?_set_ne (by omega)
  · rfl

lemma take_succ_set (l : List α) {j : Nat} (h : j < l.length) (v : α) :
    (l.set j v).take (j + 1) = l.take j ++ [v] := by
  rw [List.take_succ, take_set_same, List.getElem?_set_self (by simpa using h)]
  rfl

lemma drop_succ_set (l : List α) (j : Nat) (v : α) :
    (l.set j v).drop (j + 1) = l.drop (j + 1) := by
  rw [List.drop_set]
  simp

/-! ### Helper lemmas about the chunking engine -/

lemma intoChunksGo_of_lt {L : Nat} {blocks : List α} (fuel : Nat) (h : blocks.length < L) :
    intoChunksGo L fuel blocks = ([], blocks) := by
  cases fuel with
  | zero => rfl
  | succ fuel =>
    rw [intoChunksGo, if_neg]
    omega

lemma into_chunks_of_lt {L : Nat} {blocks : List α} (h : blocks.length < L) :
    into_chunks L blocks = ([], blocks) :=
  intoChunksGo_of_lt blocks.length h

lemma intoChunksGo_flatten (L : Nat) :
    ∀ (fuel : Nat) (blocks : List α), blocks.length ≤ fuel →
      (intoChunksGo L fuel blocks).1.flatten ++ (intoChunksGo L fuel blocks).2 = blocks := by
  intro fuel
  induction fuel with
  | zero => intro blocks h; rfl
  | succ fuel ih =>
    intro blocks h
    rw [intoChunksGo]
    by_cases hc : 1 ≤ L ∧ L ≤ blocks.length
    · rw [if_pos hc]
      have hd : (blocks.drop L).length ≤ fuel := by
        simp only [List.length_drop]
        omega
      simp only [List.flatten_cons, List.append_assoc, ih (blocks.drop L) hd]
      exact List.take_append_drop L blocks
    · rw [if_neg hc]
      rfl

lemma into_chunks_flatten (L : Nat) (blocks : List α) :
    (into_chunks L blocks).1.flatten ++ (into_chunks L blocks).2 = blocks :=
  intoChunksGo_flatten L blocks.length blocks (Nat.le_refl _)

lemma intoChunksGo_chunk_len (L : Nat) :
    ∀ (fuel : Nat) (blocks : List α), ∀ c ∈ (intoChunksGo L fuel blocks).1, c.length = L := by
  intro fuel
  induction fuel with
  | zero => intro blocks c hc; simp [intoChunksGo] at hc
  | succ fuel ih =>
    intro blocks c hc
    rw [intoChunksGo] at hc
    by_cases hcond : 1 ≤ L ∧ L ≤ blocks.length
    · rw [if_pos hcond] at hc
      simp only [List.mem_cons] at hc
      rcases hc with hc | hc
      · subst hc
        simp only [List.length_take]
        omega
      · exact ih (blocks.drop L) c hc
    · rw [if_neg hcond] at hc
      simp at hc

lemma into_chunks_chunk_len (L : Nat) (blocks : List α) :
    ∀ c ∈ (into_chunks L blocks).1, c.length = L :=
  intoChunksGo_chunk_len L blocks.length blocks

lemma intoChunksGo_tail_lt {L : Nat} (h : 1 ≤ L) :
    ∀ (fuel : Nat) (blocks : List α), blocks.length ≤ fuel →
      (intoChunksGo L fuel blocks).2.length < L := by
  intro fuel
  induction fuel with
  | zero =>
    intro blocks hb
    have : blocks.length = 0 := by omega
    simp [intoChunksGo, this]
    omega
  | succ fuel ih =>
    intro blocks hb
    rw [intoChunksGo]
    by_cases hc : 1 ≤ L ∧ L ≤ blocks.length
    · rw [if_pos hc]
      exact ih (blocks.drop L) (by simp only [List.length_drop]; omega)
    · rw [if_neg hc]
      show blocks.length < L
      omega

lemma into_chunks_tail_lt {L : Nat} (h : 1 ≤ L) (blocks : List α) :
    (into_chunks L blocks).2.length < L :=
  intoChunksGo_tail_lt h blocks.length blocks (Nat.le_refl _)

lemma intoChunksGo_fst_length {L : Nat} (h : 1 ≤ L) :
    ∀ (fuel : Nat) (blocks : List α), blocks.length ≤ fuel →
      (intoChunksGo L fuel blocks).1.length = blocks.length / L := by
  intro fuel
  induction fuel with
  | zero =>
    intro blocks hb
    have h0 : blocks.length = 0 := by omega
    simp [intoChunksGo, h0, Nat.div_eq_of_lt (by omega : 0 < L)]
  | succ fuel ih =>
    intro blocks hb
    rw [intoChunksGo]
    by_cases hc : 1 ≤ L ∧ L ≤ blocks.length
    · rw [if_pos hc]
      have hd : (blocks.drop L).length ≤ fuel := by
        simp only [List.length_drop]
        omega
      simp only [List.length_cons, ih (blocks.drop L) hd, List.length_drop]
      rw [Nat.div_eq blocks.length L, if_pos ⟨by omega, hc.2⟩]
    · rw [if_neg hc]
      have : blocks.length < L := by omega
      simp [Nat.div_eq_of_lt this]

lemma into_chunks_fst_length {L : Nat} (h : 1 ≤ L) (blocks : List α) :
    (into_chunks L blocks).1.length = blocks.length / L :=
  intoChunksGo_fst_length h blocks.length blocks (Nat.le_refl _)

lemma intoChunksGo_snd_length {L : Nat} (h : 1 ≤ L) :
    ∀ (fuel : Nat) (blocks : List α), blocks.length ≤ fuel →
      (intoChunksGo L fuel blocks).2.length = blocks.length % L := by
  intro fuel
  induction fuel with
  | zero =>
    intro blocks hb
    have h0 : blocks.length = 0 := by omega
    simp [intoChunksGo, h0]
  | succ fuel ih =>
    intro blocks hb
    rw [intoChunksGo]
    by_cases hc : 1 ≤ L ∧ L ≤ blocks.length
    · rw [if_pos hc]
      have hd : (blocks.drop L).length ≤ fuel := by
        simp only [List.length_drop]
        omega
      show (intoChunksGo L fuel (blocks.drop L)).2.length = blocks.length % L
      rw [ih (blocks.drop L) hd]
      simp only [List.length_drop]
      rw [Nat.mod_eq blocks.length L, if_pos ⟨by omega, hc.2⟩]
    · rw [if_neg hc]
      have : blocks.length < L := by omega
      simp [Nat.mod_eq_of_lt this]

lemma into_chunks_snd_length {L : Nat} (h : 1 ≤ L) (blocks : List α) :
    (into_chunks L blocks).2.length = blocks.length % L :=
  intoChunksGo_snd_length h blocks.length blocks (Nat.le_refl _)

/-! ### Helper lemmas about the backend dispatch -/

lemma procBlocksSeq_append (pb : S → Blk → S × Blk) (s : S) (xs ys : List Blk) :
    procBlocksSeq pb s (xs ++ ys) =
      ((procBlocksSeq pb (procBlocksSeq pb s xs).1 ys).1,
       (procBlocksSeq pb s xs).2 ++ (procBlocksSeq pb (procBlocksSeq pb s xs).1 ys).2) := by
  induction xs generalizing s with
  | nil => simp [procBlocksSeq]
  | cons a as ih => simp [procBlocksSeq, ih]

lemma procParBlocksDefault_eq (pb : S → Blk → S × Blk) :
    ∀ (k j : Nat) (s : S) (mem : List Blk), j + k = mem.length →
      procParBlocksDefault pb j k s mem =
        ((procBlocksSeq pb s (mem.drop j)).1,
         mem.take j ++ (procBlocksSeq pb s (mem.drop j)).2) := by
  intro k
  induction k with
  | zero =>
    intro j s mem h
    rw [procParBlocksDefault]
    rw [List.drop_eq_nil_of_le (by omega), List.take_of_length_le (by omega)]
    simp [procBlocksSeq]
  | succ k ih =>
    intro j s mem h
    have hj : j < mem.length := by omega
    rw [procParBlocksDefault]
    have hget : mem.getD j [] = mem[j] := List.getD_eq_getElem mem [] hj
    have hlen : (j + 1) + k = (mem.set j (pb s (mem.getD j [])).2).length := by
      simp only [List.length_set]
      omega
    rw [ih (j+1) _ _ hlen]
    rw [drop_succ_set, take_succ_set mem hj]
    rw [List.drop_eq_getElem_cons hj, procBlocksSeq, ← hget]
    simp only [List.append_assoc, List.singleton_append]

lemma procChunksLoop_default (pb : S → Blk → S × Blk) (L : Nat) :
    ∀ (chunks : List (List Blk)) (s : S), (∀ c ∈ chunks, c.length = L) →
      (procChunksLoop (fun s bl => procParBlocksDefault pb 0 L s bl) s chunks).1 =
          (procBlocksSeq pb s chunks.flatten).1 ∧
        (procChunksLoop (fun s bl => procParBlocksDefault pb 0 L s bl) s chunks).2.flatten =
          (procBlocksSeq pb s chunks.flatten).2 := by
  intro chunks
  induction chunks with
  | nil => intro s h; simp [procChunksLoop, procBlocksSeq]
  | cons c cs ih =>
    intro s h
    have hc : c.length = L := h c (by simp)
    have hpar : procParBlocksDefault pb 0 L s c = procBlocksSeq pb s c := by
      rw [procParBlocksDefault_eq pb L 0 s c (by omega)]
      simp
    have ihcs := ih (procBlocksSeq pb s c).1 (fun d hd => h d (by simp [hd]))
    simp only [procChunksLoop, hpar, List.flatten_cons,
      procBlocksSeq_append pb s c cs.flatten, ihcs.1, ihcs.2]
    simp

/-! ### Helper lemmas about keystream application -/

lemma xorBlock_getD {N j : Nat} (h : j < N) (a b : Blk) :
    (xorBlock N a b).getD j 0 = (a.getD j 0) ^^^ (b.getD j 0) :=
  getD_map_range _ h 0

lemma apply_ks_length (N : Nat) (blocks ks : List Blk) :
    (apply_ks N blocks ks).length = blocks.length := by
  simp [apply_ks]

lemma apply_ks_getD (N : Nat) {blocks : List Blk} {i : Nat} (h : i < blocks.length)
    (ks : List Blk) :
    (apply_ks N blocks ks).getD i [] = xorBlock N (blocks.getD i []) (ks.getD i []) :=
  getD_map_range _ h []

lemma apply_ks_loop_eq (N : Nat) (ks : List Blk) :
    ∀ (k j : Nat) (mem : List Blk), j + k = mem.length →
      apply_ks_loop N ks j k mem =
        mem.take j ++ (List.range' j k).map fun i => xorBlock N (mem.getD i []) (ks.getD i []) := by
  intro k
  induction k with
  | zero =>
    intro j mem h
    rw [apply_ks_loop, List.range'_zero, List.map_nil, List.append_nil,
      List.take_of_length_le (by omega)]
  | succ k ih =>
    intro j mem h
    have hj : j < mem.length := by omega
    rw [apply_ks_loop]
    have hlen : (j + 1) + k = (mem.set j (xorBlock N (mem.getD j []) (ks.getD j []))).length := by
      simp only [List.length_set]
      omega
    rw [ih (j+1) _ hlen]
    rw [take_succ_set mem hj]
    have hmap :
        (List.range' (j+1) k).map
            (fun i => xorBlock N ((mem.set j (xorBlock N (mem.getD j []) (ks.getD j []))).getD i [])
              (ks.getD i [])) =
          (List.range' (j+1) k).map fun i => xorBlock N (mem.getD i []) (ks.getD i []) := by
      apply List.map_congr_left
      intro i hi
      obtain ⟨m, hm, rfl⟩ := List.mem_range'.mp hi
      have hne : j ≠ j + 1 + 1 * m := by omega
      rw [List.getD_eq_getElem?_getD, List.getElem?_set_ne hne, ← List.getD_eq_getElem?_getD]
    rw [hmap, List.range'_succ]
    simp only [List.map_cons, List.append_assoc, List.singleton_append]

lemma apply_ks_inplace_eq (N : Nat) (mem ks : List Blk) :
    apply_ks_inplace N mem ks = apply_ks N mem ks := by
  rw [apply_ks_inplace, apply_ks_loop_eq N ks mem.length 0 mem (by omega)]
  rw [apply_ks, List.take_zero, List.nil_append, List.range_eq_range']

lemma map_range_getD_eq {l : List α} {N : Nat} (h : l.length = N) (d : α) :
    (List.range N).map (fun j => l.getD j d) = l := by
  subst h
  exact map_getD_range l d

lemma xorBlock_involutive {N : Nat} {a : Blk} (b : Blk) (ha : a.length = N) :
    xorBlock N (xorBlock N a b) b = a := by
  rw [xorBlock]
  have : ∀ j ∈ List.range N,
      ((xorBlock N a b).getD j 0) ^^^ (b.getD j 0) = a.getD j 0 := by
    intro j hj
    rw [xorBlock_getD (List.mem_range.mp hj)]
    rw [Nat.xor_assoc, Nat.xor_self, Nat.xor_zero]
  rw [List.map_congr_left this, map_range_getD_eq ha]

lemma apply_ks_involutive (N : Nat) {blocks : List Blk} (ks : List Blk)
    (h : ∀ b ∈ blocks, b.length = N) :
    apply_ks N (apply_ks N blocks ks) ks = blocks := by
  rw [apply_ks, apply_ks_length]
  have : ∀ i ∈ List.range blocks.length,
      xorBlock N ((apply_ks N blocks ks).getD i []) (ks.getD i []) = blocks.getD i [] := by
    intro i hi
    have hi' := List.mem_range.mp hi
    rw [apply_ks_getD N hi']
    have hmem : blocks.getD i [] ∈ blocks := by
      rw [List.getD_eq_getElem?_getD, List.getElem?_eq_getElem hi', Option.getD_some]
      exact List.getElem_mem hi'
    exact xorBlock_involutive _ (h _ hmem)
  rw [List.map_congr_left this, map_getD_range]

lemma mkBackend_ParBlocksSize (L : Nat) (pb : S → Blk → S × Blk) :
    (mkBackend L pb).ParBlocksSize = L := rfl

lemma mkBackend_proc_block (L : Nat) (pb : S → Blk → S × Blk) :
    (mkBackend L pb).proc_block = pb := rfl

lemma mkBackend_proc_par_blocks (L : Nat) (pb : S → Blk → S × Blk) :
    (mkBackend L pb).proc_par_blocks = fun s bl => procParBlocksDefault pb 0 L s bl := rfl

lemma mkBackend_proc_tail_blocks (L : Nat) (pb : S → Blk → S × Blk) :
    (mkBackend L pb).proc_tail_blocks = fun s bl => procTailBlocksDefault L pb s bl := rfl

lemma advance_advance (c : SCipher) (k m : Nat) :
    advance (advance c k) m = advance c (k + m) := by
  cases c with
  | mk bs ks pos rem =>
    cases rem <;> simp [advance, Nat.add_assoc, Nat.sub_sub]

lemma advance_zero (c : SCipher) : advance c 0 = c := by
  cases c with
  | mk bs ks pos rem =>
    cases rem <;> simp [advance]

/-! ### Claim theorems -/

lemma call_mkBackend_eq_seq (L : Nat) (pb : S → Blk → S × Blk) (s : S)
    (blocks : List Blk) :
    BlocksCtx.call (mkBackend L pb) s blocks = some (procBlocksSeq pb s blocks) := by
  rw [BlocksCtx.call, mkBackend_ParBlocksSize, mkBackend_proc_block,
    mkBackend_proc_par_blocks, mkBackend_proc_tail_blocks]
  by_cases hL : 1 < L
  · rw [if_pos hL]
    have h1 : 1 ≤ L := by omega
    have hchunk := into_chunks_chunk_len L blocks
    have htail : (into_chunks L blocks).2.length < L := into_chunks_tail_lt h1 blocks
    have hloop := procChunksLoop_default pb L (into_chunks L blocks).1 s hchunk
    simp only [procTailBlocksDefault, if_pos htail, Option.map_some']
    rw [hloop.1, hloop.2]
    have hsplit : procBlocksSeq pb s blocks =
        ((procBlocksSeq pb (procBlocksSeq pb s (into_chunks L blocks).1.flatten).1
            (into_chunks L blocks).2).1,
          (procBlocksSeq pb s (into_chunks L blocks).1.flatten).2 ++
            (procBlocksSeq pb (procBlocksSeq pb s (into_chunks L blocks).1.flatten).1
              (into_chunks L blocks).2).2) := by
      conv_lhs => rw [← into_chunks_flatten L blocks]
      rw [procBlocksSeq_append]
    rw [hsplit]
  · rw [if_neg hL]

/-- C2: for every backend lane width `L` and every block sequence, dispatching
through the batched path (`BlocksCtx::call`, which splits the sequence into
full lane groups plus a tail via `into_chunks` and runs the default
`proc_par_blocks` on each group and the default `proc_tail_blocks` on the
tail) produces exactly the same output blocks, in the same order and with the
same final backend state, as calling `proc_block` once per block in original
order — and no tail assertion fires. -/
theorem batched_dispatch_eq_per_block (L : Nat) (pb : S → Blk → S × Blk) (s : S)
    (blocks : List Blk) :
    BlocksCtx.call (mkBackend L pb) s blocks = some (procBlocksSeq pb s blocks) :=
  call_mkBackend_eq_seq L pb s blocks

/-- C7: for a backend whose lane width `ParBlocksSize` is 1, `BlocksCtx::call`
skips the chunking phase entirely: whatever the lane-group handler `f` and the
tail handler `g` do, the result is `proc_block` applied once per block in
original order — so `proc_par_blocks` and `proc_tail_blocks` are never
invoked. -/
theorem lane_width_one_skips_chunking (pb : S → Blk → S × Blk)
    (f : S → List Blk → S × List Blk) (g : S → List Blk → Option (S × List Blk))
    (s : S) (blocks : List Blk) :
    BlocksCtx.call ⟨1, pb, f, g⟩ s blocks = some (procBlocksSeq pb s blocks) := by
  rw [BlocksCtx.call]
  exact if_neg (show ¬1 < 1 by omega)

/-- C8: `proc_tail_blocks` asserts that the tail is strictly shorter than the
lane width (modelled by `procTailBlocksDefault` returning `none` on
violation), and for the tail that `BlocksCtx::call` actually passes to it —
the second component of `into_chunks` — the assertion always holds, so the
dispatch never aborts. -/
theorem tail_assertion_never_fails (L : Nat) (pb : S → Blk → S × Blk) (s : S)
    (blocks : List Blk) (hL : 1 < L) :
    (into_chunks L blocks).2.length < L ∧
      (procTailBlocksDefault L pb s (into_chunks L blocks).2).isSome = true ∧
      (BlocksCtx.call (mkBackend L pb) s blocks).isSome = true := by
  have htail : (into_chunks L blocks).2.length < L := into_chunks_tail_lt (by omega) blocks
  refine ⟨htail, ?_, ?_⟩
  · rw [procTailBlocksDefault, if_pos htail]
    rfl
  · rw [call_mkBackend_eq_seq]
    rfl

/-- C8 witness: at lane width 4 with a 10-block input the theorem's concrete
instance holds. -/
theorem tail_assertion_never_fails_witness :
    (into_chunks 4 ((List.range 10).map fun i => [i])).2.length < 4 ∧
      (procTailBlocksDefault 4 (fun (s : Nat) (b : Blk) => (s, b)) 0
        (into_chunks 4 ((List.range 10).map fun i => [i])).2).isSome = true ∧
      (BlocksCtx.call (mkBackend 4 fun (s : Nat) (b : Blk) => (s, b)) 0
        ((List.range 10).map fun i => [i])).isSome = true :=
  tail_assertion_never_fails 4 (fun s b => (s, b)) 0 ((List.range 10).map fun i => [i])
    (by omega)

/-- C4: `apply_ks` writes `output[i][j] = input[i][j] xor keystream[i][j]`,
and because each input block is read in full before the corresponding output
block is written and never read again, running the loop over a single shared
buffer (in-place, `apply_ks_inplace`) produces exactly the same result as
writing into a disjoint output buffer (`apply_ks`). -/
theorem apply_ks_aliasing_safe (N : Nat) (mem ks : List Blk)
    (hlen : ks.length = mem.length) :
    apply_ks_inplace N mem ks = apply_ks N mem ks ∧
      ∀ i j : Nat, i < mem.length → j < N →
        ((apply_ks_inplace N mem ks).getD i []).getD j 0 =
          ((mem.getD i []).getD j 0) ^^^ ((ks.getD i []).getD j 0) := by
  refine ⟨apply_ks_inplace_eq N mem ks, ?_⟩
  intro i j hi hj
  rw [apply_ks_inplace_eq, apply_ks_getD N hi, xorBlock_getD hj]

/-- C4 witness: a concrete two-block buffer evaluated through the theorem. -/
theorem apply_ks_aliasing_safe_witness :
    apply_ks_inplace 2 [[1, 2], [3, 4]] [[5, 6], [7, 8]] =
        apply_ks 2 [[1, 2], [3, 4]] [[5, 6], [7, 8]] ∧
      ((apply_ks_inplace 2 [[1, 2], [3, 4]] [[5, 6], [7, 8]]).getD 1 []).getD 0 0 = 3 ^^^ 7 := by
  have h := apply_ks_aliasing_safe 2 [[1, 2], [3, 4]] [[5, 6], [7, 8]] (by decide)
  exact ⟨h.1, h.2 1 0 (by decide) (by decide)⟩

/-- C6: keystream application is self-inverse: applying
`apply_keystream_blocks` twice from the same cipher state (hence with the
same keystream blocks) returns the original data byte for byte. -/
theorem apply_keystream_self_inverse (c : SCipher) (blocks : List Blk)
    (h : ∀ b ∈ blocks, b.length = c.blockSize) :
    (apply_keystream_blocks c (apply_keystream_blocks c blocks).1).1 = blocks := by
  rw [apply_keystream_blocks, apply_keystream_blocks]
  simp only [apply_ks_length]
  exact apply_ks_involutive c.blockSize _ h

/-- C6 witness: a concrete cipher and two-block buffer round-trip. -/
theorem apply_keystream_self_inverse_witness :
    (apply_keystream_blocks ⟨2, fun i => [i + 1, 2 * i], 0, none⟩
        (apply_keystream_blocks ⟨2, fun i => [i + 1, 2 * i], 0, none⟩ [[1, 2], [3, 4]]).1).1 =
      [[1, 2], [3, 4]] :=
  apply_keystream_self_inverse ⟨2, fun i => [i + 1, 2 * i], 0, none⟩ [[1, 2], [3, 4]]
    (by decide)

/-- C10: on an empty input buffer `try_apply_keystream_partial` returns `Ok`,
generates no keystream block and leaves the cipher state (counter and
remaining budget) unchanged — even when the remaining budget is `Some 0`. -/
theorem empty_buffer_noop (c : SCipher) :
    try_apply_keystream_part c [] = Except.ok ([], c) := by
  rw [try_apply_keystream_part]
  have hchk : keystreamCheckFails c 0 = false := by
    rw [keystreamCheckFails]
    cases c.remaining with
    | none => rfl
    | some rem => simp [needed_blocks]
  simp [hchk]

/-- C1: behavior of `try_apply_keystream_partial` at the failing input of the
claim — block size 16, remaining budget `Some 2`, a 33-byte buffer.  The
claim (and the method's own documentation) requires an `InsufficientCapacity`
error since `ceil(33/16) = 3 > 2`, but the code computes
`blocks = 33 % 16 + 1 = 2 ≤ 2`, returns `Ok`, and consumes three keystream
blocks (the final counter is 3) with a budget of two. -/
theorem budget_check_code_bug :
    (try_apply_keystream_part ⟨16, fun _ => List.replicate 16 0, 0, some 2⟩
        (List.replicate 33 1)).toOption.map (fun r => (r.1.length, r.2.pos)) = some (33, 3) ∧
      needed_blocks 16 33 = 2 ∧ (33 + 16 - 1) / 16 = 3 := by
  exact ⟨by rfl, by rfl, by rfl⟩

/-- C5: on a buffer whose length is not a multiple of the block size, and
whose budget check passes, `try_apply_keystream_partial` processes the
complete leading blocks (the first component of `into_chunks`) through
`apply_keystream_blocks`, then runs the remaining `tail_len` bytes — padded
with zeroes to a full scratch block — through exactly one further keystream
block, and emits only the first `tail_len` bytes of that scratch block; in
total the counter advances by `len / blockSize + 1`. -/
theorem tail_bytes_handling (c : SCipher) (buf : List Nat)
    (hbs : 0 < c.blockSize)
    (hmod : buf.length % c.blockSize ≠ 0)
    (hchk : keystreamCheckFails c buf.length = false) :
    try_apply_keystream_part c buf =
      Except.ok
        ((apply_keystream_blocks c (into_chunks c.blockSize buf).1).1.flatten ++
            ((apply_keystream_blocks
                  (apply_keystream_blocks c (into_chunks c.blockSize buf).1).2
                  [(into_chunks c.blockSize buf).2 ++
                    List.replicate (c.blockSize - (into_chunks c.blockSize buf).2.length) 0]).1.getD
                0 []).take (into_chunks c.blockSize buf).2.length,
          advance c (buf.length / c.blockSize + 1)) := by
  rw [try_apply_keystream_part, hchk]
  simp only [Bool.false_eq_true, if_false]
  by_cases hbl : c.blockSize < buf.length
  · rw [if_pos hbl]
    have hn : (into_chunks c.blockSize buf).2.length = buf.length % c.blockSize :=
      into_chunks_snd_length hbs buf
    have hne : ¬(into_chunks c.blockSize buf).2.length = 0 := by
      rw [hn]
      exact hmod
    simp only [if_neg hne]
    have hfst : (into_chunks c.blockSize buf).1.length = buf.length / c.blockSize :=
      into_chunks_fst_length hbs buf
    have hc2 : (apply_keystream_blocks
          (apply_keystream_blocks c (into_chunks c.blockSize buf).1).2
          [(into_chunks c.blockSize buf).2 ++
            List.replicate (c.blockSize - (into_chunks c.blockSize buf).2.length) 0]).2 =
        advance c (buf.length / c.blockSize + 1) := by
      show advance (advance c (into_chunks c.blockSize buf).1.length) _ = _
      rw [advance_advance, hfst]
      rfl
    rw [hc2]
  · rw [if_neg hbl]
    have hlt : buf.length < c.blockSize := by
      rcases Nat.lt_or_ge buf.length c.blockSize with h | h
      · exact h
      · have : buf.length = c.blockSize := by omega
        rw [this, Nat.mod_self] at hmod
        exact absurd rfl hmod
    have hct : into_chunks c.blockSize buf = ([], buf) := into_chunks_of_lt hlt
    have hne : ¬buf.length = 0 := by
      intro h0
      rw [h0, Nat.zero_mod] at hmod
      exact hmod rfl
    simp only [if_neg hne, hct]
    have hnil : apply_keystream_blocks c ([] : List Blk) = ([], advance c 0) := rfl
    rw [hnil, advance_zero]
    have hdiv : buf.length / c.blockSize = 0 := Nat.div_eq_of_lt hlt
    rw [hdiv]
    simp only [List.flatten_nil, List.nil_append]
    rfl

/-- C5 witness: block size 4, six input bytes, an unbounded cipher — the
theorem's hypotheses hold and its conclusion is the concrete code output. -/
theorem tail_bytes_handling_witness :
    try_apply_keystream_part ⟨4, fun i => [i + 1, i + 2, i + 3, i + 4], 0, none⟩
        [10, 20, 30, 40, 50, 60] =
      Except.ok
        ((apply_keystream_blocks ⟨4, fun i => [i + 1, i + 2, i + 3, i + 4], 0, none⟩
              (into_chunks 4 [10, 20, 30, 40, 50, 60]).1).1.flatten ++
            ((apply_keystream_blocks
                  (apply_keystream_blocks ⟨4, fun i => [i + 1, i + 2, i + 3, i + 4], 0, none⟩
                      (into_chunks 4 [10, 20, 30, 40, 50, 60]).1).2
                  [(into_chunks 4 [10, 20, 30, 40, 50, 60]).2 ++
                    List.replicate (4 - (into_chunks 4 [10, 20, 30, 40, 50, 60]).2.length)
                      0]).1.getD 0 []).take (into_chunks 4 [10, 20, 30, 40, 50, 60]).2.length,
          advance ⟨4, fun i => [i + 1, i + 2, i + 3, i + 4], 0, none⟩ (6 / 4 + 1)) :=
  tail_bytes_handling ⟨4, fun i => [i + 1, i + 2, i + 3, i + 4], 0, none⟩
    [10, 20, 30, 40, 50, 60] (by decide) (by decide) (by rfl)

/-- C3: `encrypt_blocks_b2b` and `decrypt_blocks_b2b` return `NotEqualError`
exactly when the two slices differ in length; in that case the out buffer is
returned unmodified and no backend processing runs (the result does not
depend on the algorithm at all), while on equal lengths the call succeeds and
the out buffer receives the processed input blocks. -/
theorem blocks_b2b_length_mismatch (alg : BlockAlg S) (in_blocks out_blocks : List Blk) :
    (in_blocks.length ≠ out_blocks.length →
        encrypt_blocks_b2b alg in_blocks out_blocks = some (Except.error (), out_blocks) ∧
          decrypt_blocks_b2b alg in_blocks out_blocks = some (Except.error (), out_blocks)) ∧
      (in_blocks.length = out_blocks.length →
        encrypt_blocks_b2b alg in_blocks out_blocks =
            some (Except.ok (), (procBlocksSeq alg.encProc alg.st in_blocks).2) ∧
          decrypt_blocks_b2b alg in_blocks out_blocks =
            some (Except.ok (), (procBlocksSeq alg.decProc alg.st in_blocks).2)) := by
  constructor
  · intro hne
    rw [encrypt_blocks_b2b, if_neg hne, decrypt_blocks_b2b, if_neg hne]
    exact ⟨rfl, rfl⟩
  · intro heq
    rw [encrypt_blocks_b2b, if_pos heq, decrypt_blocks_b2b, if_pos heq]
    rw [call_mkBackend_eq_seq, call_mkBackend_eq_seq]
    exact ⟨rfl, rfl⟩

/-- C3 witness: input length 5 against output length 4 fails with the
length-mismatch error and leaves the output buffer unmodified. -/
theorem blocks_b2b_length_mismatch_witness :
    encrypt_blocks_b2b (⟨(), 1, fun s b => (s, b), fun s b => (s, b)⟩ : BlockAlg Unit)
        [[1], [2], [3], [4], [5]] [[0], [0], [0], [0]] =
      some (Except.error (), [[0], [0], [0], [0]]) :=
  ((blocks_b2b_length_mismatch (⟨(), 1, fun s b => (s, b), fun s b => (s, b)⟩ : BlockAlg Unit)
      [[1], [2], [3], [4], [5]] [[0], [0], [0], [0]]).1 (by decide)).1

/-- C9: the read-only surfaces `BlockEncrypt`/`BlockDecrypt` induce the
mutable surfaces via the blanket adapter, and for every closure the mutable
entry points return exactly the read-only entry points' output together with
the algorithm value unchanged. -/
theorem mut_surface_refines_readonly (alg : BlockAlg S) (f : BlockClosureData) :
    encrypt_with_backend_mut alg f = (encrypt_with_backend alg f, alg) ∧
      decrypt_with_backend_mut alg f = (decrypt_with_backend alg f, alg) :=
  ⟨rfl, rfl⟩

end CipherSpec
